import Mathlib

/-!
# Shallow embedding of the Super Simple Stock Market (src/sssm/sssm.py)

The Python module defines a `Stock` hierarchy (`CommonStock`, `PreferredStock`),
a `Trade` record, and an `Exchange` holding an append-only trade ledger with two
query operations, `price_by_stock` and `all_share_index`.

Modelling conventions:
* Python strings are `List Char` (`Str`); `str.upper()` is `strUpper`,
  and Python's lexicographic string comparison is the `List Char`
  lexicographic order.
* Python numbers (`int`, `float` used as exact quantities) are `ℚ`
  (`ℤ` for trade quantities, matching the `int` annotation); the one
  genuinely real-valued operation, `x ** (1/n)` in `all_share_index`,
  is `Real.rpow`.
* Python exceptions are the `Except PyError` monad: `a / b` is `pydiv`,
  which raises `ZeroDivisionError` on a zero denominator, and the abstract
  `Stock.dividend_yield` raises `NotImplementedError`.
* `datetime.utcnow()` is an explicit clock argument `now : ℚ`;
  `Trade.timestamp` is the clock instant passed to the constructor.
* `sorted(..., key=attrgetter('stock.symbol'))` is `List.mergeSort` with the
  symbol order, and `itertools.groupby` (runs of consecutive equal keys)
  is `List.splitBy` with symbol equality.
-/

namespace SSSM

/-- A Python string, as its list of code points. -/
abbrev Str := List Char

/-- Embedding of Python `str.upper()` (ASCII letters, as in `Char.toUpper`). -/
def strUpper (s : Str) : Str := s.map Char.toUpper

/-- The Python exceptions that the module can raise. -/
inductive PyError where
  | zeroDivisionError
  | notImplementedError
deriving DecidableEq

/-- Embedding of Python division `a / b`: raises `ZeroDivisionError` when
`b == 0`, otherwise returns the exact quotient. -/
def pydiv (a b : ℚ) : Except PyError ℚ :=
  if b = 0 then .error .zeroDivisionError else .ok (a / b)

/-- Which class of the `Stock` hierarchy a stock value belongs to. -/
inductive StockKind where
  | base
  | common
  | preferred
deriving DecidableEq

/-- Embedding of the `Stock` class (and its two subclasses, discriminated by
`kind`): fields as stored on the Python object. -/
structure Stock where
  kind : StockKind
  symbol : Str
  last_dividend : ℚ
  par_value : ℚ
  fixed_dividend : Option ℚ
deriving DecidableEq

/-- Embedding of `Stock.__init__` (sssm.py lines 53-57): the symbol is stored
uppercased (`symbol.upper()`), the remaining fields verbatim. -/
def Stock.make (kind : StockKind) (symbol : Str) (last_dividend par_value : ℚ)
    (fixed_dividend : Option ℚ) : Stock :=
  { kind := kind
    symbol := strUpper symbol
    last_dividend := last_dividend
    par_value := par_value
    fixed_dividend := fixed_dividend }

/-- Embedding of `dividend_yield` (dynamic dispatch over the hierarchy):
the base class raises `NotImplementedError`; `CommonStock` returns
`last_dividend / price`; `PreferredStock` returns
`(fixed_dividend * par_value) / price` when `fixed_dividend` is not `None`,
else `0`. -/
def Stock.dividend_yield (s : Stock) (price : ℚ) : Except PyError ℚ :=
  match s.kind with
  | .base => .error .notImplementedError
  | .common => pydiv s.last_dividend price
  | .preferred =>
    match s.fixed_dividend with
    | some f => pydiv (f * s.par_value) price
    | none => .ok 0

/-- Embedding of `Stock.pe_ratio` (sssm.py line 85): `1 / dividend_yield(price)`,
with exceptions from the yield computation propagating. -/
def Stock.pe_ratio (s : Stock) (price : ℚ) : Except PyError ℚ :=
  (s.dividend_yield price).bind (fun y => pydiv 1 y)

/-- Embedding of the `TradeType` enum. -/
inductive TradeType where
  | buy
  | sell
deriving DecidableEq

/-- Embedding of the `Trade` class: fields as stored by `Trade.__init__`. -/
structure Trade where
  stock : Stock
  quantity : ℤ
  action : TradeType
  price : ℚ
  timestamp : ℚ
deriving DecidableEq

/-- Embedding of `Trade.__init__`: stores the arguments and stamps `timestamp`
with the construction-time clock reading (`datetime.utcnow()`), passed here as
the explicit `now` argument. -/
def Trade.make (stock : Stock) (quantity : ℤ) (action : TradeType) (price : ℚ)
    (now : ℚ) : Trade :=
  { stock := stock, quantity := quantity, action := action, price := price
    timestamp := now }

/-- Embedding of `Trade.volume_weighted_price` (sssm.py lines 144-148):
`sum(price * quantity) / sum(quantity)`, the division raising
`ZeroDivisionError` when the quantities sum to zero. -/
def Trade.volume_weighted_price (trades : List Trade) : Except PyError ℚ :=
  pydiv ((trades.map (fun t => t.price * (t.quantity : ℚ))).sum)
    (((trades.map (fun t => t.quantity)).sum : ℤ) : ℚ)

/-- Embedding of the `Exchange` class: the trade ledger. -/
structure Exchange where
  trades : List Trade
deriving DecidableEq

/-- Embedding of `Exchange.__init__`: the ledger starts empty. -/
def Exchange.new : Exchange := { trades := [] }

/-- Embedding of `Exchange.record_trade`: appends the trade to the ledger. -/
def Exchange.record_trade (ex : Exchange) (trade : Trade) : Exchange :=
  { trades := ex.trades ++ [trade] }

/-- Recording a sequence of trades one call at a time. -/
def Exchange.record_all (ex : Exchange) (ts : List Trade) : Exchange :=
  ts.foldl Exchange.record_trade ex

/-- The list-comprehension condition of `price_by_stock` (sssm.py lines
173-175): the stored symbol equals the uppercased query symbol and the
timestamp is within the last `duration` seconds of `now`. -/
def pbsFilter (symbol : Str) (duration : ℤ) (now : ℚ) (t : Trade) : Bool :=
  t.stock.symbol == strUpper symbol && decide (now - (duration : ℚ) ≤ t.timestamp)

/-- Embedding of `Exchange.price_by_stock` (sssm.py lines 165-179): filter the
ledger, then return `None` if nothing matched, else the volume-weighted price
of the matching trades. -/
def Exchange.price_by_stock (ex : Exchange) (symbol : Str) (duration : ℤ)
    (now : ℚ) : Except PyError (Option ℚ) :=
  let trades := ex.trades.filter (pbsFilter symbol duration now)
  if trades.isEmpty then .ok none
  else (Trade.volume_weighted_price trades).map some

/-- Embedding of the nested `include` function of `all_share_index` (sssm.py
lines 190-194): when `duration` is truthy (neither `None` nor `0`) keep trades
within the window, otherwise keep everything. -/
def includeTrade (duration : Option ℤ) (now : ℚ) (t : Trade) : Bool :=
  match duration with
  | some d => if d ≠ 0 then decide (now - (d : ℚ) ≤ t.timestamp) else true
  | none => true

/-- The sort key comparison of `sorted(..., key=attrgetter('stock.symbol'))`. -/
def symLe (a b : Trade) : Bool := decide (a.stock.symbol ≤ b.stock.symbol)

/-- The `groupby` key equality: equality of stored symbols, case as stored. -/
def symEq (a b : Trade) : Bool := a.stock.symbol == b.stock.symbol

/-- The local `trades` list of `all_share_index` (sssm.py lines 197-198): the
included trades sorted by stored stock symbol. -/
def Exchange.sortedIncluded (ex : Exchange) (duration : Option ℤ) (now : ℚ) :
    List Trade :=
  (ex.trades.filter (includeTrade duration now)).mergeSort symLe

/-- The `groupby` grouping of `all_share_index` (sssm.py line 200): runs of
consecutive sorted trades with equal stored symbols. -/
def Exchange.groups (ex : Exchange) (duration : Option ℤ) (now : ℚ) :
    List (List Trade) :=
  (ex.sortedIncluded duration now).splitBy symEq

/-- Embedding of the list comprehension building `prices` (sssm.py lines
201-202): one volume-weighted price per group, the first exception raised
propagating out. -/
def mapExcept (f : α → Except PyError ℚ) : List α → Except PyError (List ℚ)
  | [] => .ok []
  | a :: l => (f a).bind (fun x => (mapExcept f l).bind (fun xs => .ok (x :: xs)))

/-- Embedding of `Exchange.all_share_index` (sssm.py lines 181-205): `None`
when no trade is included; otherwise the geometric mean
`reduce(mul, prices) ** (1 / len(prices))` of the per-group volume-weighted
prices. -/
noncomputable def Exchange.all_share_index (ex : Exchange) (duration : Option ℤ)
    (now : ℚ) : Except PyError (Option ℝ) :=
  let trades := ex.sortedIncluded duration now
  if trades.isEmpty then .ok none
  else (mapExcept Trade.volume_weighted_price (ex.groups duration now)).map
    (fun prices => some (Real.rpow ((prices.prod : ℚ) : ℝ) (1 / (prices.length : ℝ))))

/-! ### Specification-side predicates and auxiliary definitions -/

/-- The matching condition of `price_by_stock` as the specification words it:
the trade's stock symbol equals the uppercased query symbol, and its timestamp
is at least `now - duration` seconds. -/
def pbsMatch (symbol : Str) (duration : ℤ) (now : ℚ) (t : Trade) : Prop :=
  t.stock.symbol = strUpper symbol ∧ now - (duration : ℚ) ≤ t.timestamp

instance (symbol : Str) (duration : ℤ) (now : ℚ) (t : Trade) :
    Decidable (pbsMatch symbol duration now t) := by
  unfold pbsMatch; exact instDecidableAnd

/-- The trades `all_share_index` includes, as the specification words it: all
of them when `duration` is `None` or `0`, otherwise those with
`timestamp >= now - duration`. -/
def specIncluded (trades : List Trade) (duration : Option ℤ) (now : ℚ) :
    List Trade :=
  match duration with
  | none => trades
  | some d =>
    if d = 0 then trades
    else trades.filter (fun t => decide (now - (d : ℚ) ≤ t.timestamp))

/-- The stored symbol heading a trade group (`[]` for an empty group; groups
produced by `splitBy` are never empty). -/
def kh : List Trade → Str
  | [] => []
  | t :: _ => t.stock.symbol

/-- State-passing form of the `price_by_stock` method body: the body only
reads `self.trades` (it builds a fresh local list), so executing it leaves the
receiver as it was. -/
def Exchange.price_by_stock_st (ex : Exchange) (symbol : Str) (duration : ℤ)
    (now : ℚ) : Exchange × Except PyError (Option ℚ) :=
  (ex, ex.price_by_stock symbol duration now)

/-- State-passing form of the `all_share_index` method body: the body only
reads `self.trades`, so executing it leaves the receiver as it was. -/
noncomputable def Exchange.all_share_index_st (ex : Exchange)
    (duration : Option ℤ) (now : ℚ) : Exchange × Except PyError (Option ℝ) :=
  (ex, ex.all_share_index duration now)

/-! ### Concrete fixtures used by witnesses -/

/-- `CommonStock('POP', last_dividend=8, par_value=100)`. -/
def sPOP : Stock := Stock.make .common "POP".data 8 100 none

/-- `CommonStock('tea', last_dividend=0, par_value=100)` (lowercase input). -/
def sTEA : Stock := Stock.make .common "tea".data 0 100 none

/-- `PreferredStock('GIN', 8, par_value=100, fixed_dividend=0.02)`. -/
def sGIN : Stock := Stock.make .preferred "GIN".data 8 100 (some (2/100))

/-- A preferred stock whose `fixed_dividend` is `None`. -/
def sPRE : Stock := Stock.make .preferred "PRE".data 8 100 none

/-- A `TEA` trade: buy 42 at price 32, recorded at instant 1. -/
def tTEA : Trade := Trade.make sTEA 42 .buy 32 1

/-- A `GIN` trade: buy 1000 at price 512, recorded at instant 2. -/
def tGIN : Trade := Trade.make sGIN 1000 .buy 512 2

/-- A `POP` trade: buy 420 at price 8, recorded at instant 3. -/
def tPOP : Trade := Trade.make sPOP 420 .buy 8 3

/-- An exchange holding the three fixture trades, in recording order. -/
def exW1 : Exchange := Exchange.new.record_all [tTEA, tGIN, tPOP]

/-- A trade whose stock record stores a lowercase symbol directly (the Python
`Stock` object is mutable and `record_trade` validates nothing, so such a
ledger state is representable). -/
def tLower : Trade := Trade.make ⟨.common, "tea".data, 8, 100, none⟩ 1 .buy 9 1

/-- An uppercase-`TEA` trade for the case-sensitivity contrast. -/
def tUpper : Trade := Trade.make sTEA 1 .buy 4 1

/-- An exchange holding one `TEA` trade and one `tea` trade. -/
def exW4 : Exchange := Exchange.new.record_all [tUpper, tLower]

/-- An exchange holding only the `POP` trade. -/
def exW2 : Exchange := Exchange.new.record_all [tPOP]

/-! ## Helper lemmas -/

/-- `Char.toUpper` is idempotent: uppercasing maps `a`-`z` into `A`-`Z`,
which a second uppercasing leaves unchanged. -/
lemma char_toUpper_idem (c : Char) : c.toUpper.toUpper = c.toUpper := by
  unfold Char.toUpper
  simp only []
  by_cases h : c.toNat ≥ 97 ∧ c.toNat ≤ 122
  · have hv : ((Char.ofNat (c.toNat - 32)).toNat) = c.toNat - 32 := by
      rw [Char.ofNat, dif_pos]
      · rfl
      · exact Or.inl (by omega)
    rw [if_pos h, if_neg (by rw [hv]; omega)]
  · rw [if_neg h, if_neg h]

/-- `strUpper` is idempotent. -/
lemma strUpper_idem (s : Str) : strUpper (strUpper s) = strUpper s := by
  unfold strUpper
  rw [List.map_map]
  exact List.map_congr_left (fun c _ => char_toUpper_idem c)

/-- Folding `record_trade` over a trade list appends the list to the ledger. -/
lemma record_all_trades (ex : Exchange) (ts : List Trade) :
    (ex.record_all ts).trades = ex.trades ++ ts := by
  induction ts generalizing ex with
  | nil => simp [Exchange.record_all]
  | cons t ts ih =>
    simp only [Exchange.record_all, List.foldl_cons] at ih ⊢
    rw [ih, Exchange.record_trade, List.append_assoc]
    rfl

/-- The `include` filter of `all_share_index` computes the specification's
inclusion rule. -/
lemma includeTrade_filter (trades : List Trade) (dur : Option ℤ) (now : ℚ) :
    trades.filter (includeTrade dur now) = specIncluded trades dur now := by
  cases dur with
  | none => simp [includeTrade, specIncluded]
  | some d =>
    by_cases hd : d = 0
    · simp [includeTrade, specIncluded, hd]
    · rw [specIncluded, if_neg hd]
      exact List.filter_congr (fun t _ => by simp [includeTrade, hd])

/-- The sorted working list of `all_share_index` is a permutation of the
included trades. -/
lemma sortedIncluded_perm (ex : Exchange) (dur : Option ℤ) (now : ℚ) :
    List.Perm (ex.sortedIncluded dur now) (specIncluded ex.trades dur now) := by
  rw [Exchange.sortedIncluded, includeTrade_filter]
  exact List.mergeSort_perm _ _

/-- The sorted working list of `all_share_index` is sorted by stored symbol. -/
lemma sortedIncluded_sorted (ex : Exchange) (dur : Option ℤ) (now : ℚ) :
    (ex.sortedIncluded dur now).Pairwise
      (fun a b => a.stock.symbol ≤ b.stock.symbol) := by
  have h := @List.sorted_mergeSort Trade symLe
    (fun a b c hab hbc => by
      simp only [symLe, decide_eq_true_eq] at hab hbc ⊢
      exact le_trans hab hbc)
    (fun a b => by
      simp only [symLe]
      rcases le_total a.stock.symbol b.stock.symbol with h | h <;> simp [h])
    (ex.trades.filter (includeTrade dur now))
  exact h.imp (fun hab => by simpa [symLe] using hab)

/-- Within a `symEq`-chained trade list every trade bears the head symbol. -/
lemma chain_const_symbol :
    ∀ (g : List Trade) (a : Trade),
      (a :: g).Chain' (fun x y => symEq x y = true) →
      ∀ x ∈ a :: g, x.stock.symbol = a.stock.symbol := by
  intro g
  induction g with
  | nil =>
    intro a _ x hx
    rw [List.mem_singleton.mp hx]
  | cons b g ih =>
    intro a h x hx
    rw [List.chain'_cons] at h
    have hab : b.stock.symbol = a.stock.symbol := by
      have := h.1
      simp only [symEq, beq_iff_eq] at this
      exact this.symm
    rcases List.mem_cons.mp hx with rfl | hx'
    · rfl
    · exact (ih b h.2 x hx').trans hab

/-- A chain under `r` whose links can be upgraded using membership. -/
lemma chain'_imp_of_mem {γ : Type} {r r' : γ → γ → Prop} :
    ∀ {l : List γ}, l.Chain' r →
      (∀ a ∈ l, ∀ b ∈ l, r a b → r' a b) → l.Chain' r'
  | [], _, _ => List.chain'_nil
  | [_], _, _ => List.chain'_singleton _
  | a :: b :: l, h, hm => by
    rw [List.chain'_cons] at h ⊢
    refine ⟨hm a (by simp) b (by simp) h.1, ?_⟩
    exact chain'_imp_of_mem h.2
      (fun x hx y hy hr => hm x (List.mem_cons_of_mem _ hx) y (List.mem_cons_of_mem _ hy) hr)

/-- Two chains on the same list combine into a chain of the conjunction. -/
lemma chain'_and {γ : Type} {r s : γ → γ → Prop} :
    ∀ {l : List γ}, l.Chain' r → l.Chain' s → l.Chain' (fun a b => r a b ∧ s a b)
  | [], _, _ => List.chain'_nil
  | [_], _, _ => List.chain'_singleton _
  | a :: b :: l, h, h' => by
    rw [List.chain'_cons] at h h' ⊢
    exact ⟨⟨h.1, h'.1⟩, chain'_and h.2 h'.2⟩

/-- Filtering a flatten for a symbol that every trade of one group bears and
no trade of any other group bears returns exactly that group. -/
lemma filter_flatten_groups :
    ∀ (gs : List (List Trade)),
      (∀ g ∈ gs, ∀ x ∈ g, x.stock.symbol = kh g) →
      gs.Pairwise (fun g1 g2 => kh g1 ≠ kh g2) →
      ∀ g ∈ gs, gs.flatten.filter (fun x => x.stock.symbol == kh g) = g := by
  intro gs
  induction gs with
  | nil => intro _ _ g hg; cases hg
  | cons g0 gs ih =>
    intro hconst hpair g hg
    rw [List.pairwise_cons] at hpair
    rw [List.flatten_cons, List.filter_append]
    rcases List.mem_cons.mp hg with rfl | hg'
    · have h1 : g.filter (fun x => x.stock.symbol == kh g) = g :=
        List.filter_eq_self.mpr (fun x hx => by
          simp [hconst g (by simp) x hx])
      have h2 : gs.flatten.filter (fun x => x.stock.symbol == kh g) = [] := by
        rw [List.filter_eq_nil_iff]
        intro x hx
        rcases List.mem_flatten.mp hx with ⟨g', hg', hxg'⟩
        have := hconst g' (List.mem_cons_of_mem _ hg') x hxg'
        simp only [beq_iff_eq, this]
        exact fun hc => hpair.1 g' hg' hc.symm
      rw [h1, h2, List.append_nil]
    · have h1 : g0.filter (fun x => x.stock.symbol == kh g) = [] := by
        rw [List.filter_eq_nil_iff]
        intro x hx
        have := hconst g0 (by simp) x hx
        simp only [beq_iff_eq, this]
        exact hpair.1 g hg'
      have h2 := ih (fun g1 hg1 => hconst g1 (List.mem_cons_of_mem _ hg1))
        hpair.2 g hg'
      rw [h1, h2, List.nil_append]

/-- Volume-weighted price only depends on the multiset of trades. -/
lemma vwp_perm {l₁ l₂ : List Trade} (h : List.Perm l₁ l₂) :
    Trade.volume_weighted_price l₁ = Trade.volume_weighted_price l₂ := by
  rw [Trade.volume_weighted_price, Trade.volume_weighted_price,
    (h.map (fun t => t.price * (t.quantity : ℚ))).sum_eq,
    (h.map (fun t => t.quantity)).sum_eq]

/-- `mapExcept` over a list on which `f` always succeeds returns the mapped
list. -/
lemma mapExcept_ok {γ : Type} (f : γ → Except PyError ℚ) (g : γ → ℚ) :
    ∀ (l : List γ), (∀ a ∈ l, f a = .ok (g a)) →
      mapExcept f l = .ok (l.map g)
  | [], _ => rfl
  | a :: l, h => by
    rw [mapExcept, h a (by simp),
      mapExcept_ok f g l (fun b hb => h b (List.mem_cons_of_mem _ hb))]
    rfl

/-- Structure of the `groupby` grouping: groups are nonempty, each group's
trades all bear its head symbol, the group symbols are distinct, each group's
volume-weighted price equals that of the included trades with its symbol, and
the group symbols are exactly the symbols of the included trades. -/
lemma groups_characterization (ex : Exchange) (dur : Option ℤ) (now : ℚ) :
    (∀ g ∈ ex.groups dur now, g ≠ []) ∧
    (∀ g ∈ ex.groups dur now, ∀ x ∈ g, x.stock.symbol = kh g) ∧
    ((ex.groups dur now).map kh).Nodup ∧
    (∀ g ∈ ex.groups dur now, Trade.volume_weighted_price g =
      Trade.volume_weighted_price ((specIncluded ex.trades dur now).filter
        (fun t => t.stock.symbol == kh g))) ∧
    (∀ s : Str, s ∈ (ex.groups dur now).map kh ↔
      s ∈ (specIncluded ex.trades dur now).map (fun t => t.stock.symbol)) := by
  set L := ex.sortedIncluded dur now with hL
  have hgs : ex.groups dur now = L.splitBy symEq := rfl
  have hflat : (L.splitBy symEq).flatten = L := List.flatten_splitBy _ _
  have hne : ∀ g ∈ L.splitBy symEq, g ≠ [] :=
    fun g hg => List.ne_nil_of_mem_splitBy _ hg
  have hconst : ∀ g ∈ L.splitBy symEq, ∀ x ∈ g, x.stock.symbol = kh g := by
    intro g hg x hx
    have hch := List.chain'_of_mem_splitBy hg
    cases g with
    | nil => cases hx
    | cons a g' => exact chain_const_symbol g' a hch x hx
  have hsorted : L.Pairwise (fun a b => a.stock.symbol ≤ b.stock.symbol) :=
    sortedIncluded_sorted ex dur now
  have hcross : (L.splitBy symEq).Pairwise
      (fun g1 g2 => ∀ x ∈ g1, ∀ y ∈ g2, x.stock.symbol ≤ y.stock.symbol) := by
    have := hsorted
    rw [← hflat] at this
    exact (List.pairwise_flatten.mp this).2
  have hadj : (L.splitBy symEq).Chain' (fun g1 g2 => kh g1 ≠ kh g2) := by
    have hch := List.chain'_getLast_head_splitBy symEq L
    refine chain'_imp_of_mem hch ?_
    rintro a ha b hb ⟨hna, hnb, hr⟩
    have h1 : (a.getLast hna).stock.symbol = kh a :=
      hconst a ha _ (List.getLast_mem hna)
    have h2 : (b.head hnb).stock.symbol = kh b :=
      hconst b hb _ (List.head_mem hnb)
    simp only [symEq] at hr
    intro hc
    rw [h1, h2, hc] at hr
    simp at hr
  have hlt : (L.splitBy symEq).Chain' (fun g1 g2 => kh g1 < kh g2) := by
    have hcombo := chain'_and hcross.chain' hadj
    refine chain'_imp_of_mem hcombo ?_
    rintro a ha b hb ⟨hle, hne'⟩
    have hna := hne a ha
    have hnb := hne b hb
    have h1 : (a.head hna).stock.symbol = kh a := hconst a ha _ (List.head_mem hna)
    have h2 : (b.head hnb).stock.symbol = kh b := hconst b hb _ (List.head_mem hnb)
    have := hle _ (List.head_mem hna) _ (List.head_mem hnb)
    rw [h1, h2] at this
    exact lt_of_le_of_ne this hne'
  have hmaplt : ((L.splitBy symEq).map kh).Chain' (· < ·) :=
    (List.chain'_map kh).mpr hlt
  have hnodup : ((L.splitBy symEq).map kh).Nodup :=
    (List.chain'_iff_pairwise.mp hmaplt).imp ne_of_lt
  have hpairne : (L.splitBy symEq).Pairwise (fun g1 g2 => kh g1 ≠ kh g2) :=
    List.pairwise_map.mp hnodup
  have hfiltL : ∀ g ∈ L.splitBy symEq,
      L.filter (fun x => x.stock.symbol == kh g) = g := by
    intro g hg
    have := filter_flatten_groups (L.splitBy symEq) hconst hpairne g hg
    rwa [hflat] at this
  have hincperm : List.Perm L (specIncluded ex.trades dur now) := sortedIncluded_perm ex dur now
  refine ⟨hgs ▸ hne, hgs ▸ hconst, hgs ▸ hnodup, ?_, ?_⟩
  · intro g hg
    rw [hgs] at hg
    have h1 : Trade.volume_weighted_price g =
        Trade.volume_weighted_price (L.filter (fun x => x.stock.symbol == kh g)) := by
      rw [hfiltL g hg]
    rw [h1]
    exact vwp_perm (hincperm.filter _)
  · intro s
    rw [hgs]
    constructor
    · intro hs
      rcases List.mem_map.mp hs with ⟨g, hg, rfl⟩
      have hgne := hne g hg
      have hhead : g.head hgne ∈ L := by
        rw [← hflat]
        exact List.mem_flatten_of_mem hg (List.head_mem hgne)
      have := hconst g hg _ (List.head_mem hgne)
      rw [← this]
      exact List.mem_map.mpr ⟨g.head hgne, hincperm.mem_iff.mp hhead, rfl⟩
    · intro hs
      rcases List.mem_map.mp hs with ⟨t, ht, rfl⟩
      have htL : t ∈ L := hincperm.mem_iff.mpr ht
      rw [← hflat] at htL
      rcases List.mem_flatten.mp htL with ⟨g, hg, htg⟩
      have := hconst g hg t htg
      rw [this]
      exact List.mem_map.mpr ⟨g, hg, rfl⟩

/-- The group symbols of `all_share_index` are, up to order, exactly the
distinct stored symbols of the included trades. -/
lemma groups_map_kh_perm (ex : Exchange) (dur : Option ℤ) (now : ℚ) :
    List.Perm ((ex.groups dur now).map kh)
      (((specIncluded ex.trades dur now).map (fun t => t.stock.symbol)).dedup) := by
  obtain ⟨_, _, hnodup, _, hmem⟩ := groups_characterization ex dur now
  refine List.perm_of_nodup_nodup_toFinset_eq hnodup (List.nodup_dedup _) ?_
  ext s
  simp only [List.mem_toFinset, List.mem_dedup]
  exact hmem s

/-- Unfolding of `all_share_index` into its branch structure. -/
lemma all_share_index_eq (ex : Exchange) (dur : Option ℤ) (now : ℚ) :
    ex.all_share_index dur now =
      if (ex.sortedIncluded dur now).isEmpty then .ok none
      else (mapExcept Trade.volume_weighted_price (ex.groups dur now)).map
        (fun prices =>
          some (Real.rpow ((prices.prod : ℚ) : ℝ) (1 / (prices.length : ℝ)))) :=
  rfl

/-- The sorted working list is empty exactly when no trade is included. -/
lemma sortedIncluded_eq_nil_iff (ex : Exchange) (dur : Option ℤ) (now : ℚ) :
    ex.sortedIncluded dur now = [] ↔ specIncluded ex.trades dur now = [] := by
  have hperm := sortedIncluded_perm ex dur now
  constructor
  · intro h
    rw [h] at hperm
    exact hperm.symm.eq_nil
  · intro h
    rw [h] at hperm
    exact hperm.eq_nil

/-- The Bool condition used by the `price_by_stock` list comprehension decides
the specification's matching predicate. -/
lemma pbsFilter_eq_decide (sym : Str) (dur : ℤ) (now : ℚ) (t : Trade) :
    pbsFilter sym dur now t = decide (pbsMatch sym dur now t) := by
  simp only [pbsFilter, pbsMatch, Bool.decide_and]
  congr 1
  by_cases h : t.stock.symbol = strUpper sym
  · simp [h]
  · simp [h]

/-! ## Claim theorems -/

/-- C1: `price_by_stock(symbol, duration)` returns `None` exactly when no
recorded trade both bears the uppercased query symbol and has
`timestamp >= now - duration`; otherwise it returns the volume-weighted price
of exactly the matching trades, and the absent value is distinct from every
numeric result. -/
theorem price_by_stock_spec (ex : Exchange) (sym : Str) (dur : ℤ) (now : ℚ) :
    ((∀ t ∈ ex.trades, ¬ pbsMatch sym dur now t) ↔
      ex.price_by_stock sym dur now = .ok none) ∧
    ((∃ t ∈ ex.trades, pbsMatch sym dur now t) →
      ex.price_by_stock sym dur now =
        (Trade.volume_weighted_price
          (ex.trades.filter (fun t => decide (pbsMatch sym dur now t)))).map some) ∧
    (∀ q : ℚ, (Except.ok (some q) : Except PyError (Option ℚ)) ≠ .ok none) := by
  have hfun : ex.trades.filter (pbsFilter sym dur now) =
      ex.trades.filter (fun t => decide (pbsMatch sym dur now t)) :=
    List.filter_congr (fun t _ => pbsFilter_eq_decide sym dur now t)
  have hpbs : ex.price_by_stock sym dur now =
      if (ex.trades.filter (fun t => decide (pbsMatch sym dur now t))).isEmpty
      then .ok none
      else (Trade.volume_weighted_price
        (ex.trades.filter (fun t => decide (pbsMatch sym dur now t)))).map some := by
    rw [Exchange.price_by_stock, hfun]
  have hnil : (ex.trades.filter (fun t => decide (pbsMatch sym dur now t))) = [] ↔
      ∀ t ∈ ex.trades, ¬ pbsMatch sym dur now t := by
    rw [List.filter_eq_nil_iff]
    simp
  have hne : (ex.trades.filter (fun t => decide (pbsMatch sym dur now t))) ≠ [] →
      ex.price_by_stock sym dur now =
        (Trade.volume_weighted_price
          (ex.trades.filter (fun t => decide (pbsMatch sym dur now t)))).map some := by
    intro h
    rw [hpbs, if_neg (by simpa [List.isEmpty_iff] using h)]
  refine ⟨⟨?_, ?_⟩, ?_, ?_⟩
  · intro h
    rw [hpbs, if_pos (by simp [List.isEmpty_iff, hnil.mpr h])]
  · intro hres t ht hp
    have hmem : t ∈ ex.trades.filter (fun t => decide (pbsMatch sym dur now t)) :=
      List.mem_filter.mpr ⟨ht, by simpa using hp⟩
    have h := hne (List.ne_nil_of_mem hmem)
    rw [h] at hres
    cases hv : Trade.volume_weighted_price
        (ex.trades.filter (fun t => decide (pbsMatch sym dur now t))) with
    | error e => rw [hv] at hres; cases hres
    | ok q => rw [hv] at hres; cases hres
  · rintro ⟨t, ht, hp⟩
    exact hne (List.ne_nil_of_mem
      (List.mem_filter.mpr ⟨ht, by simpa using hp⟩))
  · intro q h
    cases h

/-- Witness for C1: on the fixture ledger the lowercase query `'tea'` matches
exactly the `TEA` trade and returns its volume-weighted price 32. -/
theorem price_by_stock_spec_witness :
    (∃ t ∈ exW1.trades, pbsMatch "tea".data 300 5 t) ∧
    exW1.price_by_stock "tea".data 300 5 = .ok (some 32) := by
  have hex : ∃ t ∈ exW1.trades, pbsMatch "tea".data 300 5 t := by
    refine ⟨tTEA, by simp [exW1, record_all_trades, Exchange.new], ?_, ?_⟩
    · decide
    · show (5:ℚ) - (300:ℤ) ≤ tTEA.timestamp
      norm_num [tTEA, Trade.make]
  refine ⟨hex, ?_⟩
  have h := (price_by_stock_spec exW1 "tea".data 300 5).2.1 hex
  rw [h]
  have hfil : exW1.trades.filter (fun t => decide (pbsMatch "tea".data 300 5 t)) =
      [tTEA] := by
    have h1 : exW1.trades = [tTEA, tGIN, tPOP] := by
      simp [exW1, record_all_trades, Exchange.new]
    rw [h1]
    rw [List.filter_cons, List.filter_cons, List.filter_cons]
    norm_num [pbsMatch, tTEA, tGIN, tPOP, sTEA, sGIN, sPOP, Trade.make, Stock.make]
    decide
  rw [hfil, Trade.volume_weighted_price]
  norm_num [tTEA, sTEA, Trade.make, Stock.make, pydiv]
  rfl

/-- C3: for a trade sequence with nonzero total quantity,
`Trade.volume_weighted_price` is `Σ(price·quantity) / Σ(quantity)`; for the
empty sequence or any sequence whose quantities sum to zero it raises
`ZeroDivisionError` (there is no internal empty-check). -/
theorem volume_weighted_price_spec (trades : List Trade) :
    ((trades.map (fun t => t.quantity)).sum ≠ 0 →
      Trade.volume_weighted_price trades =
        .ok ((trades.map (fun t => t.price * (t.quantity : ℚ))).sum /
          (((trades.map (fun t => t.quantity)).sum : ℤ) : ℚ))) ∧
    ((trades.map (fun t => t.quantity)).sum = 0 →
      Trade.volume_weighted_price trades = .error .zeroDivisionError) := by
  constructor
  · intro h
    rw [Trade.volume_weighted_price, pydiv, if_neg (by exact_mod_cast h)]
  · intro h
    rw [Trade.volume_weighted_price, pydiv, if_pos (by exact_mod_cast h)]

/-- Witness for C3: a two-trade sequence with total quantity 840 has
volume-weighted price (8·420 + 16·420)/840 = 12, and the empty sequence
raises `ZeroDivisionError`. -/
theorem volume_weighted_price_spec_witness :
    (([tPOP, Trade.make sPOP 420 .buy 16 4].map (fun t => t.quantity)).sum ≠ 0 ∧
      Trade.volume_weighted_price [tPOP, Trade.make sPOP 420 .buy 16 4] = .ok 12) ∧
    Trade.volume_weighted_price [] = .error .zeroDivisionError := by
  refine ⟨⟨by decide, ?_⟩, (volume_weighted_price_spec []).2 (by decide)⟩
  have h := (volume_weighted_price_spec [tPOP, Trade.make sPOP 420 .buy 16 4]).1 (by decide)
  rw [h]
  norm_num [tPOP, sPOP, Trade.make, Stock.make]

/-- C5: whenever `dividend_yield(price)` returns a value `y`, `pe_ratio(price)`
returns `1 / y` when `y ≠ 0`, and raises `ZeroDivisionError` exactly when
`y = 0`. -/
theorem pe_ratio_spec (s : Stock) (p y : ℚ) (hy : s.dividend_yield p = .ok y) :
    (y ≠ 0 → s.pe_ratio p = .ok (1 / y)) ∧
    (s.pe_ratio p = .error .zeroDivisionError ↔ y = 0) := by
  have hbind : s.pe_ratio p = pydiv 1 y := by
    rw [Stock.pe_ratio, hy]; rfl
  constructor
  · intro h
    rw [hbind, pydiv, if_neg h]
  · rw [hbind]
    constructor
    · intro h
      by_contra hne
      rw [pydiv, if_neg hne] at h
      cases h
    · intro h
      rw [pydiv, if_pos h]

/-- Witness for C5: `CommonStock('POP', 8, 100).pe_ratio(100) == 12.5`, and a
common stock with `last_dividend == 0` raises `ZeroDivisionError`. -/
theorem pe_ratio_spec_witness :
    (sPOP.dividend_yield 100 = .ok (2/25) ∧ (2/25 : ℚ) ≠ 0 ∧
      sPOP.pe_ratio 100 = .ok (25/2)) ∧
    (sTEA.dividend_yield 100 = .ok 0 ∧
      sTEA.pe_ratio 100 = .error .zeroDivisionError) := by
  have hyP : sPOP.dividend_yield 100 = .ok (2/25) := by
    rw [sPOP, Stock.make, Stock.dividend_yield]
    simp only [pydiv]
    norm_num
  have hyT : sTEA.dividend_yield 100 = .ok 0 := by
    rw [sTEA, Stock.make, Stock.dividend_yield]
    simp only [pydiv]
    norm_num
  refine ⟨⟨hyP, by norm_num, ?_⟩, hyT, (pe_ratio_spec sTEA 100 0 hyT).2.mpr rfl⟩
  have h := (pe_ratio_spec sPOP 100 (2/25) hyP).1 (by norm_num)
  rw [h]
  norm_num

/-- C6: a common stock's dividend yield at a positive price is
`last_dividend / price`. -/
theorem common_dividend_yield (s : Stock) (p : ℚ) (hk : s.kind = .common)
    (hp : 0 < p) : s.dividend_yield p = .ok (s.last_dividend / p) := by
  rw [Stock.dividend_yield, hk, pydiv, if_neg (ne_of_gt hp)]

/-- Witness for C6: `CommonStock('POP', 8, 100).dividend_yield(100) == 0.08`. -/
theorem common_dividend_yield_witness :
    sPOP.kind = .common ∧ (0:ℚ) < 100 ∧
      sPOP.dividend_yield 100 = .ok (8/100) := by
  refine ⟨rfl, by norm_num, ?_⟩
  exact common_dividend_yield sPOP 100 rfl (by norm_num)

/-- C7: a preferred stock's dividend yield at a positive price is
`(fixed_dividend * par_value) / price` when `fixed_dividend` is set, and `0`
when it is `None`. -/
theorem preferred_dividend_yield (s : Stock) (p : ℚ) (hk : s.kind = .preferred)
    (hp : 0 < p) :
    (∀ f, s.fixed_dividend = some f →
      s.dividend_yield p = .ok (f * s.par_value / p)) ∧
    (s.fixed_dividend = none → s.dividend_yield p = .ok 0) := by
  constructor
  · intro f hf
    rw [Stock.dividend_yield, hk]
    simp only [hf]
    rw [pydiv, if_neg (ne_of_gt hp)]
  · intro hf
    rw [Stock.dividend_yield, hk]
    simp only [hf]

/-- Witness for C7: `PreferredStock('GIN', 8, 0.02, 100).dividend_yield(100)
== 0.02`, and yield `0` when `fixed_dividend` is `None`. -/
theorem preferred_dividend_yield_witness :
    (sGIN.kind = .preferred ∧ (0:ℚ) < 100 ∧
      sGIN.fixed_dividend = some (2/100) ∧
      sGIN.dividend_yield 100 = .ok (2/100)) ∧
    (sPRE.fixed_dividend = none ∧ sPRE.dividend_yield 100 = .ok 0) := by
  refine ⟨⟨rfl, by norm_num, rfl, ?_⟩, rfl,
    (preferred_dividend_yield sPRE 100 rfl (by norm_num)).2 rfl⟩
  have h := (preferred_dividend_yield sGIN 100 rfl (by norm_num)).1 (2/100) rfl
  rw [h]
  show Except.ok ((2/100 : ℚ) * (100:ℚ) / (100:ℚ)) = _
  norm_num

/-- C8: a fresh exchange has an empty ledger, recording trades appends them in
call order (`trades[i]` is the i-th recorded trade), and `record_trade` keeps
every existing entry at its index. -/
theorem exchange_ledger_spec :
    Exchange.new.trades = [] ∧
    (∀ ts : List Trade, (Exchange.new.record_all ts).trades = ts) ∧
    (∀ (ts : List Trade) (i : ℕ), i < ts.length →
      ((Exchange.new.record_all ts).trades)[i]? = ts[i]?) ∧
    (∀ (ex : Exchange) (t : Trade) (i : ℕ), i < ex.trades.length →
      ((ex.record_trade t).trades)[i]? = ex.trades[i]?) := by
  have hall : ∀ ts : List Trade, (Exchange.new.record_all ts).trades = ts := by
    intro ts
    rw [record_all_trades]
    rfl
  refine ⟨rfl, hall, fun ts i _ => by rw [hall], fun ex t i hi => ?_⟩
  rw [Exchange.record_trade]
  show (ex.trades ++ [t])[i]? = ex.trades[i]?
  exact List.getElem?_append_left hi

/-- Witness for C8: recording the three fixture trades yields exactly that
ledger, and a further `record_trade` keeps entry 0 in place. -/
theorem exchange_ledger_spec_witness :
    exW1.trades = [tTEA, tGIN, tPOP] ∧
    ((2:ℕ) < [tTEA, tGIN, tPOP].length ∧
      exW1.trades[2]? = some tPOP) ∧
    ((0:ℕ) < exW1.trades.length ∧
      (exW1.record_trade tPOP).trades[0]? = exW1.trades[0]?) := by
  have h1 := exchange_ledger_spec.2.1 [tTEA, tGIN, tPOP]
  refine ⟨h1, ⟨by decide, ?_⟩, ?_⟩
  · rw [show exW1 = Exchange.new.record_all [tTEA, tGIN, tPOP] from rfl, h1]
    rfl
  · have hlen : exW1.trades.length = 3 := by
      rw [show exW1 = Exchange.new.record_all [tTEA, tGIN, tPOP] from rfl, h1]
      rfl
    refine ⟨by rw [hlen]; norm_num, ?_⟩
    exact exchange_ledger_spec.2.2.2 exW1 tPOP 0 (by rw [hlen]; norm_num)

/-- C9: a constructed stock stores the uppercased symbol, and that stored
symbol is already uppercase (uppercasing it again changes nothing; no
operation of the module ever rebuilds a stock, so it stays that way). -/
theorem stock_symbol_uppercase (kind : StockKind) (sym : Str) (d pv : ℚ)
    (f : Option ℚ) :
    (Stock.make kind sym d pv f).symbol = strUpper sym ∧
    strUpper (Stock.make kind sym d pv f).symbol =
      (Stock.make kind sym d pv f).symbol := by
  exact ⟨rfl, strUpper_idem sym⟩

/-- C10: the query methods `price_by_stock` and `all_share_index` leave the
exchange state untouched: after running either body the ledger is the same
list (same length, order, and trades, hence the same fields and timestamps),
and the returned value is the queries' value. -/
theorem queries_read_only (ex : Exchange) (sym : Str) (dur : ℤ) (now : ℚ)
    (dur2 : Option ℤ) (now2 : ℚ) :
    ((ex.price_by_stock_st sym dur now).1.trades = ex.trades) ∧
    (∀ i : ℕ, ((ex.price_by_stock_st sym dur now).1.trades)[i]? = ex.trades[i]?) ∧
    ((ex.price_by_stock_st sym dur now).2 = ex.price_by_stock sym dur now) ∧
    ((ex.all_share_index_st dur2 now2).1.trades = ex.trades) ∧
    (∀ i : ℕ, ((ex.all_share_index_st dur2 now2).1.trades)[i]? = ex.trades[i]?) ∧
    ((ex.all_share_index_st dur2 now2).2 = ex.all_share_index dur2 now2) :=
  ⟨rfl, fun _ => rfl, rfl, rfl, fun _ => rfl, rfl⟩

/-- C2: `all_share_index(duration)` includes a trade exactly per the truthiness
rule (`specIncluded`: a truthy duration keeps trades with
`timestamp >= now - duration`, a zero or `None` duration keeps everything);
it returns `None` exactly when no trade is included, and otherwise the
geometric mean `(Π price_i) ** (1/n)` of the volume-weighted prices of the
`n` per-symbol groups of the included trades. -/
theorem all_share_index_spec (ex : Exchange) (dur : Option ℤ) (now : ℚ) :
    (specIncluded ex.trades dur now = [] →
      ex.all_share_index dur now = .ok none) ∧
    (specIncluded ex.trades dur now ≠ [] →
      ex.all_share_index dur now ≠ .ok none) ∧
    (∀ p : Str → ℚ,
      (∀ s ∈ ((specIncluded ex.trades dur now).map
          (fun t => t.stock.symbol)).dedup,
        Trade.volume_weighted_price ((specIncluded ex.trades dur now).filter
          (fun t => t.stock.symbol == s)) = .ok (p s)) →
      specIncluded ex.trades dur now ≠ [] →
      ex.all_share_index dur now = .ok (some (Real.rpow
        (((((specIncluded ex.trades dur now).map
          (fun t => t.stock.symbol)).dedup.map p).prod : ℚ) : ℝ)
        (1 / ((((specIncluded ex.trades dur now).map
          (fun t => t.stock.symbol)).dedup.length : ℕ) : ℝ))))) := by
  obtain ⟨hne, hconst, hnodup, hvwp, hmem⟩ := groups_characterization ex dur now
  have hsymperm := groups_map_kh_perm ex dur now
  refine ⟨?_, ?_, ?_⟩
  · intro h
    rw [all_share_index_eq,
      if_pos (List.isEmpty_iff.mpr ((sortedIncluded_eq_nil_iff ex dur now).mpr h))]
  · intro h
    rw [all_share_index_eq, if_neg (by
      simp only [List.isEmpty_iff]
      exact fun hc => h ((sortedIncluded_eq_nil_iff ex dur now).mp hc))]
    cases hm : mapExcept Trade.volume_weighted_price (ex.groups dur now) with
    | error e => simp [Except.map]
    | ok prices => simp [Except.map]
  · intro p hp hnonempty
    have hok : ∀ g ∈ ex.groups dur now,
        Trade.volume_weighted_price g = .ok (p (kh g)) := by
      intro g hg
      rw [hvwp g hg]
      exact hp (kh g) (by
        rw [List.mem_dedup]
        exact (hmem (kh g)).mp (List.mem_map_of_mem kh hg))
    have hmap := mapExcept_ok Trade.volume_weighted_price (fun g => p (kh g))
      (ex.groups dur now) hok
    rw [all_share_index_eq, if_neg (by
      simp only [List.isEmpty_iff]
      exact fun hc => hnonempty ((sortedIncluded_eq_nil_iff ex dur now).mp hc)),
      hmap]
    have hmm : (ex.groups dur now).map (fun g => p (kh g)) =
        ((ex.groups dur now).map kh).map p := by
      rw [List.map_map]
      rfl
    have hprod : ((ex.groups dur now).map (fun g => p (kh g))).prod =
        ((((specIncluded ex.trades dur now).map
          (fun t => t.stock.symbol)).dedup).map p).prod := by
      rw [hmm]
      exact (hsymperm.map p).prod_eq
    have hlen : ((ex.groups dur now).map (fun g => p (kh g))).length =
        (((specIncluded ex.trades dur now).map
          (fun t => t.stock.symbol)).dedup).length := by
      rw [hmm, List.length_map, List.length_map, ← List.length_map _ kh]
      exact hsymperm.length_eq
    simp only [Except.map]
    rw [hprod, hlen]

/-- Witness for C2: on the one-`POP`-trade exchange with a truthy duration the
index is the geometric mean of the single group price 8. -/
theorem all_share_index_spec_witness :
    specIncluded exW2.trades (some 300) 5 ≠ [] ∧
    (∀ s ∈ ((specIncluded exW2.trades (some 300) 5).map
        (fun t => t.stock.symbol)).dedup,
      Trade.volume_weighted_price ((specIncluded exW2.trades (some 300) 5).filter
        (fun t => t.stock.symbol == s)) = .ok ((fun _ : Str => (8:ℚ)) s)) ∧
    exW2.all_share_index (some 300) 5 =
      .ok (some (Real.rpow ((8:ℚ) : ℝ) (1 / ((1:ℕ) : ℝ)))) := by
  have hinc : specIncluded exW2.trades (some 300) 5 = [tPOP] := by
    rw [specIncluded, if_neg (by norm_num)]
    rw [show exW2.trades = [tPOP] from rfl, List.filter_cons]
    norm_num [tPOP, Trade.make]
  have hvw : Trade.volume_weighted_price [tPOP] = .ok 8 := by
    rw [Trade.volume_weighted_price]
    norm_num [tPOP, sPOP, Trade.make, Stock.make, pydiv]
  have hp : ∀ s ∈ ((specIncluded exW2.trades (some 300) 5).map
      (fun t => t.stock.symbol)).dedup,
      Trade.volume_weighted_price ((specIncluded exW2.trades (some 300) 5).filter
        (fun t => t.stock.symbol == s)) = .ok ((fun _ : Str => (8:ℚ)) s) := by
    rw [hinc]
    intro s hs
    simp only [List.map_cons, List.map_nil, List.dedup_cons_of_not_mem,
      List.not_mem_nil, not_false_iff, List.dedup_nil, List.mem_singleton] at hs
    subst hs
    rw [List.filter_cons]
    simp only [beq_self_eq_true, if_pos]
    rw [List.filter_nil]
    exact hvw
  have hnonempty : specIncluded exW2.trades (some 300) 5 ≠ [] := by
    rw [hinc]
    exact List.cons_ne_nil _ _
  refine ⟨hnonempty, hp, ?_⟩
  have h := (all_share_index_spec exW2 (some 300) 5).2.2 (fun _ : Str => (8:ℚ))
    hp hnonempty
  rw [h, hinc]
  norm_num

/-- C4: the grouping key of `all_share_index` is the stored symbol with case
as stored (the number of groups is the number of distinct case-sensitive
symbols among the included trades), so the `TEA` and `tea` trades of the
fixture fall in two separate groups, while `price_by_stock` uppercases its
query (`'tea'` finds the `TEA` trade). -/
theorem grouping_case_sensitive :
    (∀ (ex : Exchange) (dur : Option ℤ) (now : ℚ),
      (ex.groups dur now).length =
        (((specIncluded ex.trades dur now).map
          (fun t => t.stock.symbol)).dedup).length) ∧
    (tUpper.stock.symbol ≠ tLower.stock.symbol ∧
      strUpper tUpper.stock.symbol = strUpper tLower.stock.symbol) ∧
    (exW4.groups none 0).length = 2 ∧
    exW4.price_by_stock "tea".data 300 5 = .ok (some 4) := by
  have hgen : ∀ (ex : Exchange) (dur : Option ℤ) (now : ℚ),
      (ex.groups dur now).length =
        (((specIncluded ex.trades dur now).map
          (fun t => t.stock.symbol)).dedup).length := by
    intro ex dur now
    rw [← List.length_map _ kh]
    exact (groups_map_kh_perm ex dur now).length_eq
  refine ⟨hgen, ⟨by decide, by decide⟩, ?_, ?_⟩
  · rw [hgen]
    decide
  · rw [Exchange.price_by_stock]
    have hfil : exW4.trades.filter (pbsFilter "tea".data 300 5) = [tUpper] := by
      rw [show exW4.trades = [tUpper, tLower] from rfl,
        List.filter_cons, List.filter_cons]
      have h1 : pbsFilter "tea".data 300 5 tUpper = true := by
        rw [pbsFilter]
        simp only [Bool.and_eq_true, beq_iff_eq, decide_eq_true_eq]
        refine ⟨by decide, ?_⟩
        norm_num [tUpper, sTEA, Trade.make, Stock.make]
      have h2 : pbsFilter "tea".data 300 5 tLower = false := by
        rw [pbsFilter]
        simp only [Bool.and_eq_false_iff, beq_eq_false_iff_ne, ne_eq]
        left
        decide
      rw [h1, h2]
      simp
    rw [hfil]
    have hvw : Trade.volume_weighted_price [tUpper] = .ok 4 := by
      rw [Trade.volume_weighted_price]
      norm_num [tUpper, sTEA, Trade.make, Stock.make, pydiv]
    simp only [List.isEmpty_cons, if_false, Bool.false_eq_true]
    rw [hvw]
    rfl

end SSSM
